import Mathlib

set_option maxHeartbeats 1000000

/-!
Shallow embedding of the `uhttp_transfer_encoding` Rust crate (src/src/lib.rs).

Strings are modelled as `List Char`.  Rust's `str::trim` removes characters
satisfying `char::is_whitespace` (the Unicode `White_Space` property) from both
ends; `str::split(',')` produces the comma-delimited segments (count of commas
plus one, empty segments included); `eq_ignore_ascii_case` compares with ASCII
case folding only.  The iterator returned by `transfer_encodings` is modelled
both as the list of items it yields and as an explicit pull-based cursor
(`EncIter`).
-/

/-- Rust `char::is_whitespace`: the Unicode `White_Space` property
(U+0009–U+000D, U+0020, U+0085, U+00A0, U+1680, U+2000–U+200A, U+2028,
U+2029, U+202F, U+205F, U+3000). -/
def rustIsWhitespace (c : Char) : Bool :=
  decide (0x09 ≤ c.toNat ∧ c.toNat ≤ 0x0D) || decide (c.toNat = 0x20) ||
  decide (c.toNat = 0x85) || decide (c.toNat = 0xA0) || decide (c.toNat = 0x1680) ||
  decide (0x2000 ≤ c.toNat ∧ c.toNat ≤ 0x200A) || decide (c.toNat = 0x2028) ||
  decide (c.toNat = 0x2029) || decide (c.toNat = 0x202F) || decide (c.toNat = 0x205F) ||
  decide (c.toNat = 0x3000)

/-- Rust `str::trim` (line 49 of lib.rs, `s.trim()`): strip leading and trailing
whitespace.  Leading strip is `dropWhile`; trailing strip is `List.rdropWhile`
(drop from the tail end). -/
def rustTrim (s : List Char) : List Char :=
  List.rdropWhile rustIsWhitespace (s.dropWhile rustIsWhitespace)

/-- Rust `u8::to_ascii_lowercase` lifted to `char` as used by
`eq_ignore_ascii_case`: fold `A`–`Z` to lowercase, leave every other character
(including all non-ASCII characters) unchanged. -/
def to_ascii_lowercase (c : Char) : Char :=
  if 'A' ≤ c ∧ c ≤ 'Z' then Char.ofNat (c.toNat + 32) else c

/-- Rust `str::eq_ignore_ascii_case`: equality after ASCII case folding;
non-ASCII characters compare by raw value. -/
def eq_ignore_ascii_case (a b : List Char) : Bool :=
  a.map to_ascii_lowercase == b.map to_ascii_lowercase

/-- `StdTransferEncoding` enum (lib.rs lines 61–70). -/
inductive StdTransferEncoding
  | Chunked
  | Compress
  | Deflate
  | Gzip
deriving DecidableEq, Repr

/-- `impl FromStr for StdTransferEncoding` (lib.rs lines 75–90): classify a
token against the four standard names, case-insensitively; `none` models
`Err(())`. -/
def StdTransferEncoding.from_str (s : List Char) : Option StdTransferEncoding :=
  if eq_ignore_ascii_case s "chunked".data then some .Chunked
  else if eq_ignore_ascii_case s "compress".data then some .Compress
  else if eq_ignore_ascii_case s "deflate".data then some .Deflate
  else if eq_ignore_ascii_case s "gzip".data then some .Gzip
  else none

/-- `TransferEncoding` enum (lib.rs lines 36–44). -/
inductive TransferEncoding
  | Std (enc : StdTransferEncoding)
  | Other (s : List Char)
deriving DecidableEq, Repr

/-- `TransferEncoding::new` (lib.rs lines 48–55): trim, then classify; an
unrecognized name falls through to `Other` carrying the trimmed token. -/
def TransferEncoding.new (s : List Char) : TransferEncoding :=
  match StdTransferEncoding.from_str (rustTrim s) with
  | some enc => .Std enc
  | none => .Other (rustTrim s)

/-- Helper for `str::split(',')`: returns the first segment and the remaining
segments (one per comma). -/
def splitCommaAux : List Char → List Char × List (List Char)
  | [] => ([], [])
  | c :: rest =>
    let p := splitCommaAux rest
    if c = ',' then ([], p.1 :: p.2) else (c :: p.1, p.2)

/-- Rust `s.split(',')` as a list of segments: exact single-character
delimiter, empty segments kept, `""` yields one empty segment. -/
def splitComma (s : List Char) : List (List Char) :=
  (splitCommaAux s).1 :: (splitCommaAux s).2

/-- `transfer_encodings` (lib.rs lines 30–32):
`s.split(',').rev().map(TransferEncoding::new)`, modelled as the list of items
the returned iterator yields, in order. -/
def transfer_encodings (s : List Char) : List TransferEncoding :=
  (splitComma s).reverse.map TransferEncoding.new

/-- The state of the iterator returned by `transfer_encodings`: the items not
yet yielded. -/
structure EncIter where
  remaining : List TransferEncoding
deriving DecidableEq, Repr

/-- Constructing the iterator for input `s`. -/
def transfer_encodings_iter (s : List Char) : EncIter :=
  ⟨transfer_encodings s⟩

/-- One pull on the iterator: `Iterator::next`, returning the yielded item (or
`none` at exhaustion) and the successor state. -/
def EncIter.next : EncIter → Option TransferEncoding × EncIter
  | ⟨[]⟩ => (none, ⟨[]⟩)
  | ⟨e :: rest⟩ => (some e, ⟨rest⟩)

/-- Applying `next` `n` times, keeping only the state. -/
def EncIter.advance (it : EncIter) : Nat → EncIter
  | 0 => it
  | n + 1 => EncIter.advance it.next.2 n

/-- Pull until exhaustion, collecting every yielded item. -/
def EncIter.drain : EncIter → List TransferEncoding
  | ⟨[]⟩ => []
  | ⟨e :: rest⟩ => e :: EncIter.drain ⟨rest⟩

example : transfer_encodings " gzip, custom-enc, chunked".data =
    [TransferEncoding.Std .Chunked, TransferEncoding.Other "custom-enc".data,
     TransferEncoding.Std .Gzip] := by decide

example : transfer_encodings "".data = [TransferEncoding.Other []] := by decide

/-! ### Helper lemmas -/

lemma splitCommaAux_snd_length (s : List Char) :
    (splitCommaAux s).2.length = s.count ',' := by
  induction s with
  | nil => rfl
  | cons c rest ih =>
    by_cases hc : c = ','
    · simp [splitCommaAux, hc, List.count_cons, ih]
    · simp [splitCommaAux, hc, List.count_cons, ih]

lemma EncIter.next_advance (l : List TransferEncoding) (n : Nat) :
    ((EncIter.mk l).advance n).next.1 = l[n]? := by
  induction n generalizing l with
  | zero => cases l <;> simp [EncIter.advance, EncIter.next]
  | succ n ih =>
    cases l with
    | nil => simpa [EncIter.advance, EncIter.next] using ih []
    | cons e rest => simpa [EncIter.advance, EncIter.next] using ih rest

lemma EncIter.advance_advance (it : EncIter) (n m : Nat) :
    it.advance (n + m) = (it.advance n).advance m := by
  induction n generalizing it with
  | zero => simp [EncIter.advance, Nat.zero_add]
  | succ n ih =>
    have hn : n + 1 + m = (n + m) + 1 := by omega
    rw [hn]
    show EncIter.advance it.next.2 (n + m) = _
    rw [ih]
    rfl

lemma EncIter.eq_nil_of_next_none (it : EncIter) (h : it.next.1 = none) :
    it = ⟨[]⟩ := by
  obtain ⟨l⟩ := it
  cases l with
  | nil => rfl
  | cons e rest => simp [EncIter.next] at h

lemma EncIter.advance_nil (m : Nat) : EncIter.advance ⟨[]⟩ m = ⟨[]⟩ := by
  induction m with
  | zero => rfl
  | succ m ih => simpa [EncIter.advance, EncIter.next] using ih

lemma EncIter.drain_mk (l : List TransferEncoding) : EncIter.drain ⟨l⟩ = l := by
  induction l with
  | nil => simp [EncIter.drain]
  | cons e rest ih => simp [EncIter.drain, ih]

lemma TransferEncoding.new_other {x t : List Char}
    (h : TransferEncoding.new x = TransferEncoding.Other t) :
    StdTransferEncoding.from_str t = none := by
  unfold TransferEncoding.new at h
  split at h
  · exact absurd h (by simp)
  · next he =>
    injection h with ht
    rw [← ht]
    exact he

lemma eq_ignore_ascii_case_iff (a b : List Char) :
    eq_ignore_ascii_case a b = true ↔
      a.map to_ascii_lowercase = b.map to_ascii_lowercase := by
  simp [eq_ignore_ascii_case]

lemma from_str_eq_chunked (t : List Char) :
    StdTransferEncoding.from_str t = some StdTransferEncoding.Chunked ↔
      eq_ignore_ascii_case t "chunked".data = true := by
  unfold StdTransferEncoding.from_str
  by_cases hc : eq_ignore_ascii_case t "chunked".data = true
  · rw [if_pos hc]
    simp [hc]
  · rw [if_neg hc]
    split_ifs <;> simp [hc]

lemma from_str_eq_compress (t : List Char) :
    StdTransferEncoding.from_str t = some StdTransferEncoding.Compress ↔
      eq_ignore_ascii_case t "compress".data = true := by
  unfold StdTransferEncoding.from_str
  by_cases hp : eq_ignore_ascii_case t "compress".data = true
  · by_cases hc : eq_ignore_ascii_case t "chunked".data = true
    · exact absurd (((eq_ignore_ascii_case_iff t _).mp hc).symm.trans
        ((eq_ignore_ascii_case_iff t _).mp hp)) (by decide)
    · rw [if_neg hc, if_pos hp]
      simp [hp]
  · split_ifs <;> simp [hp]

lemma from_str_eq_deflate (t : List Char) :
    StdTransferEncoding.from_str t = some StdTransferEncoding.Deflate ↔
      eq_ignore_ascii_case t "deflate".data = true := by
  unfold StdTransferEncoding.from_str
  by_cases hd : eq_ignore_ascii_case t "deflate".data = true
  · by_cases hc : eq_ignore_ascii_case t "chunked".data = true
    · exact absurd (((eq_ignore_ascii_case_iff t _).mp hc).symm.trans
        ((eq_ignore_ascii_case_iff t _).mp hd)) (by decide)
    · by_cases hp : eq_ignore_ascii_case t "compress".data = true
      · exact absurd (((eq_ignore_ascii_case_iff t _).mp hp).symm.trans
          ((eq_ignore_ascii_case_iff t _).mp hd)) (by decide)
      · rw [if_neg hc, if_neg hp, if_pos hd]
        simp [hd]
  · split_ifs <;> simp [hd]

lemma from_str_eq_gzip (t : List Char) :
    StdTransferEncoding.from_str t = some StdTransferEncoding.Gzip ↔
      eq_ignore_ascii_case t "gzip".data = true := by
  unfold StdTransferEncoding.from_str
  by_cases hg : eq_ignore_ascii_case t "gzip".data = true
  · by_cases hc : eq_ignore_ascii_case t "chunked".data = true
    · exact absurd (((eq_ignore_ascii_case_iff t _).mp hc).symm.trans
        ((eq_ignore_ascii_case_iff t _).mp hg)) (by decide)
    · by_cases hp : eq_ignore_ascii_case t "compress".data = true
      · exact absurd (((eq_ignore_ascii_case_iff t _).mp hp).symm.trans
          ((eq_ignore_ascii_case_iff t _).mp hg)) (by decide)
      · by_cases hd : eq_ignore_ascii_case t "deflate".data = true
        · exact absurd (((eq_ignore_ascii_case_iff t _).mp hd).symm.trans
            ((eq_ignore_ascii_case_iff t _).mp hg)) (by decide)
        · rw [if_neg hc, if_neg hp, if_neg hd, if_pos hg]
          simp [hg]
  · split_ifs <;> simp [hg]

lemma from_str_eq_none (t : List Char) :
    StdTransferEncoding.from_str t = none ↔
      (eq_ignore_ascii_case t "chunked".data = false ∧
       eq_ignore_ascii_case t "compress".data = false ∧
       eq_ignore_ascii_case t "deflate".data = false ∧
       eq_ignore_ascii_case t "gzip".data = false) := by
  unfold StdTransferEncoding.from_str
  split_ifs with h1 h2 h3 h4 <;> simp [*]

lemma rdropWhile_append_rtakeWhile (p : Char → Bool) (l : List Char) :
    List.rdropWhile p l ++ List.rtakeWhile p l = l := by
  rw [List.rdropWhile, List.rtakeWhile, ← List.reverse_append,
    List.takeWhile_append_dropWhile, List.reverse_reverse]

lemma rustTrim_decomposition (s : List Char) :
    ∃ pre post, s = pre ++ rustTrim s ++ post ∧
      (∀ c ∈ pre, rustIsWhitespace c = true) ∧
      (∀ c ∈ post, rustIsWhitespace c = true) := by
  refine ⟨s.takeWhile rustIsWhitespace,
    List.rtakeWhile rustIsWhitespace (s.dropWhile rustIsWhitespace), ?_, ?_, ?_⟩
  · conv_lhs => rw [← List.takeWhile_append_dropWhile rustIsWhitespace (l := s),
      ← rdropWhile_append_rtakeWhile rustIsWhitespace (s.dropWhile rustIsWhitespace)]
    rw [rustTrim, List.append_assoc]
  · exact fun c hc => List.mem_takeWhile_imp hc
  · exact fun c hc => List.mem_rtakeWhile_imp hc

lemma dropWhile_head_not_ws (l : List Char) (a : Char) :
    (l.dropWhile rustIsWhitespace).head? = some a → rustIsWhitespace a = false := by
  induction l with
  | nil => intro h; simp at h
  | cons c rest ih =>
    intro h
    by_cases hc : rustIsWhitespace c
    · exact ih (by rwa [List.dropWhile_cons_of_pos hc] at h)
    · rw [List.dropWhile_cons_of_neg hc] at h
      simp only [List.head?_cons, Option.some.injEq] at h
      subst h
      simpa using hc

lemma trim_head_not_ws (s : List Char) :
    (rustTrim s).head?.all (fun c => !rustIsWhitespace c) = true := by
  cases hr : (rustTrim s).head? with
  | none => simp
  | some a =>
    have hxh : (s.dropWhile rustIsWhitespace).head? = some a := by
      obtain ⟨post, hpost⟩ :=
        List.rdropWhile_prefix rustIsWhitespace (l := s.dropWhile rustIsWhitespace)
      rw [← hpost, List.head?_append]
      rw [rustTrim] at hr
      simp [hr]
    simp [dropWhile_head_not_ws s a hxh]

lemma trim_last_not_ws (s : List Char) :
    (rustTrim s).getLast?.all (fun c => !rustIsWhitespace c) = true := by
  unfold rustTrim List.rdropWhile
  rw [List.getLast?_reverse]
  cases h : ((s.dropWhile rustIsWhitespace).reverse.dropWhile rustIsWhitespace).head? with
  | none => simp [h]
  | some a =>
    have := dropWhile_head_not_ws (s.dropWhile rustIsWhitespace).reverse a h
    simp [h, this]

/-! ### Claim theorems -/

/-- C2: the classifier returns `Chunked`, `Compress`, `Deflate`, `Gzip`
exactly when the token equals `"chunked"`, `"compress"`, `"deflate"`,
`"gzip"` respectively under ASCII-case-insensitive comparison (non-ASCII
characters compare by raw value), and returns no match for every other
token, including the empty token. -/
theorem from_str_complete (t : List Char) :
    (StdTransferEncoding.from_str t = some StdTransferEncoding.Chunked ↔
      eq_ignore_ascii_case t "chunked".data = true) ∧
    (StdTransferEncoding.from_str t = some StdTransferEncoding.Compress ↔
      eq_ignore_ascii_case t "compress".data = true) ∧
    (StdTransferEncoding.from_str t = some StdTransferEncoding.Deflate ↔
      eq_ignore_ascii_case t "deflate".data = true) ∧
    (StdTransferEncoding.from_str t = some StdTransferEncoding.Gzip ↔
      eq_ignore_ascii_case t "gzip".data = true) ∧
    (StdTransferEncoding.from_str t = none ↔
      (eq_ignore_ascii_case t "chunked".data = false ∧
       eq_ignore_ascii_case t "compress".data = false ∧
       eq_ignore_ascii_case t "deflate".data = false ∧
       eq_ignore_ascii_case t "gzip".data = false)) ∧
    StdTransferEncoding.from_str [] = none :=
  ⟨from_str_eq_chunked t, from_str_eq_compress t, from_str_eq_deflate t,
    from_str_eq_gzip t, from_str_eq_none t, by decide⟩

/-- C4 (amended): the trimming step removes exactly a run of leading
whitespace and a run of trailing whitespace and nothing else — the trimmed
token is a contiguous substring of the token carried verbatim (so interior
whitespace is preserved), and its first and last characters, when present,
are not whitespace.  Whitespace here is Rust's `char::is_whitespace`
(Unicode), not only ASCII whitespace. -/
theorem rustTrim_exact (s : List Char) :
    (∃ pre post, s = pre ++ rustTrim s ++ post ∧
      (∀ c ∈ pre, rustIsWhitespace c = true) ∧
      (∀ c ∈ post, rustIsWhitespace c = true)) ∧
    (rustTrim s).head?.all (fun c => !rustIsWhitespace c) = true ∧
    (rustTrim s).getLast?.all (fun c => !rustIsWhitespace c) = true :=
  ⟨rustTrim_decomposition s, trim_head_not_ws s, trim_last_not_ws s⟩

/-- Counterexample to C4 as stated: U+00A0 (no-break space) is a non-ASCII
character (code 160 > 127), yet the trimming step removes it, so
`TransferEncoding::new` on `"\u{A0}x"` yields `Other("x")`, not
`Other("\u{A0}x")` — non-ASCII whitespace IS stripped. -/
theorem rustTrim_strips_nonascii_whitespace :
    (Char.ofNat 0xA0).toNat = 160 ∧
    rustTrim [Char.ofNat 0xA0, 'x'] = ['x'] ∧
    TransferEncoding.new [Char.ofNat 0xA0, 'x'] = TransferEncoding.Other ['x'] := by
  decide

/-- C7: trimming is idempotent — applying the trimming rule to an
already-trimmed token yields the same token unchanged. -/
theorem rustTrim_idempotent (s : List Char) :
    rustTrim (rustTrim s) = rustTrim s := by
  unfold rustTrim
  have h1 : (List.rdropWhile rustIsWhitespace
      (s.dropWhile rustIsWhitespace)).dropWhile rustIsWhitespace =
      List.rdropWhile rustIsWhitespace (s.dropWhile rustIsWhitespace) := by
    cases ht : List.rdropWhile rustIsWhitespace (s.dropWhile rustIsWhitespace) with
    | nil => simp
    | cons a rest =>
      have ha := trim_head_not_ws s
      rw [rustTrim, ht] at ha
      simp only [List.head?_cons, Option.all_some] at ha
      exact List.dropWhile_cons_of_neg (by simp_all)
  rw [h1, List.rdropWhile_idempotent]

/-- C1: for every input string and every in-range index `i`, the item at
position `i` of the sequence produced by `transfer_encodings` is the
classification of the comma-delimited segment at the mirrored position
`length - 1 - i` of the listed order: the last-listed segment is yielded
first and the first-listed segment is yielded last. -/
theorem transfer_encodings_reverse_order (s : List Char) (i : Nat)
    (h : i < (splitComma s).length) :
    (transfer_encodings s)[i]? =
      ((splitComma s).map TransferEncoding.new)[(splitComma s).length - 1 - i]? := by
  have hm : transfer_encodings s = ((splitComma s).map TransferEncoding.new).reverse := by
    simp [transfer_encodings]
  rw [hm, List.getElem?_reverse (by simpa using h)]
  simp

/-- Witness for C1 at input `"a,b"`, index 0: the first item yielded is the
classification of the last-listed segment `"b"`. -/
theorem transfer_encodings_reverse_order_witness :
    0 < (splitComma "a,b".data).length ∧
    (transfer_encodings "a,b".data)[0]? =
      ((splitComma "a,b".data).map
        TransferEncoding.new)[(splitComma "a,b".data).length - 1 - 0]? :=
  ⟨by decide, transfer_encodings_reverse_order "a,b".data 0 (by decide)⟩

/-- C3: for every input string, the sequence produced by `transfer_encodings`
yields exactly `k + 1` items, where `k` is the number of occurrences of the
comma character in the input (empty segments from leading, trailing, or
doubled commas included). -/
theorem transfer_encodings_count (s : List Char) :
    (transfer_encodings s).length = s.count ',' + 1 := by
  simp [transfer_encodings, splitComma, splitCommaAux_snd_length]

/-- C6: for the empty input string, the sequence yields exactly one item, the
`Other` variant wrapping the empty string, and the pull after it signals
exhaustion. -/
theorem transfer_encodings_empty :
    transfer_encodings [] = [TransferEncoding.Other []] ∧
    ((transfer_encodings_iter []).advance 1).next.1 = none := by
  decide

/-- C5: every pull is total — the `n`-th pull on the iterator is exactly the
`n`-th entry of the (always well-defined) output list, and it returns an
item precisely when `n` is below the segment count `commas + 1`, exhaustion
otherwise; no pull is ever an error. -/
theorem transfer_encodings_total (s : List Char) (n : Nat) :
    ((transfer_encodings_iter s).advance n).next.1 = (transfer_encodings s)[n]? ∧
    (((transfer_encodings_iter s).advance n).next.1).isSome =
      decide (n < s.count ',' + 1) := by
  have h1 : ((transfer_encodings_iter s).advance n).next.1 =
      (transfer_encodings s)[n]? := EncIter.next_advance (transfer_encodings s) n
  refine ⟨h1, ?_⟩
  rw [h1, ← transfer_encodings_count s]
  by_cases h : n < (transfer_encodings s).length
  · simp [List.getElem?_eq_getElem h, h]
  · simp [List.getElem?_eq_none (Nat.le_of_not_lt h), h]

/-- C8: the producer is a deterministic pure function of the input — draining
any freshly constructed iterator yields exactly `transfer_encodings s`, a
fixed function of the input, so two independent constructions on the same
input yield two identical sequences. -/
theorem transfer_encodings_deterministic (s : List Char) :
    (transfer_encodings_iter s).drain = transfer_encodings s :=
  EncIter.drain_mk (transfer_encodings s)

/-- C9: exhaustion is terminal — once some pull (the `n`-th) has returned "no
more items", every later pull (the `n + m`-th, for every `m`) also returns
"no more items". -/
theorem transfer_encodings_exhausted_terminal (s : List Char) (n m : Nat)
    (h : ((transfer_encodings_iter s).advance n).next.1 = none) :
    ((transfer_encodings_iter s).advance (n + m)).next.1 = none := by
  rw [EncIter.advance_advance, EncIter.eq_nil_of_next_none _ h,
    EncIter.advance_nil]
  rfl

/-- Witness for C9 at input `"x"`: the single item is consumed by one pull,
the next pull signals exhaustion, and two pulls later exhaustion persists. -/
theorem transfer_encodings_exhausted_terminal_witness :
    ((transfer_encodings_iter "x".data).advance 1).next.1 = none ∧
    ((transfer_encodings_iter "x".data).advance (1 + 2)).next.1 = none :=
  ⟨by decide, transfer_encodings_exhausted_terminal "x".data 1 2 (by decide)⟩

/-- C10: every `Other` item the sequence yields carries a payload on which the
classifier finds no match — an `Other` payload can never name a standard
encoding. -/
theorem transfer_encodings_other_never_standard (s t : List Char)
    (h : TransferEncoding.Other t ∈ transfer_encodings s) :
    StdTransferEncoding.from_str t = none := by
  simp only [transfer_encodings, List.mem_map, List.mem_reverse] at h
  obtain ⟨x, _, hnew⟩ := h
  exact TransferEncoding.new_other hnew

/-- Witness for C10 at input `"custom"`: the sequence yields
`Other "custom"`, and the classifier rejects `"custom"`. -/
theorem transfer_encodings_other_never_standard_witness :
    TransferEncoding.Other "custom".data ∈ transfer_encodings "custom".data ∧
    StdTransferEncoding.from_str "custom".data = none :=
  ⟨by decide,
    transfer_encodings_other_never_standard "custom".data "custom".data (by decide)⟩
